import Mathlib

/-!
Shallow embedding of the response-body post-processing pipeline:
`src/async_impl/decoder.rs` (content decoding: plaintext / gzip, the
`ReadableChunks` byte-reader adapter, the `Pending` probe and the `Gzip`
stage) and `src/wait.rs` (the blocking bridge with an optional deadline).

Streams are embedded as the finite list of their future poll outcomes:
each poll of the underlying body consumes the head of the list; the end of
the list is the stream's end-of-sequence marker.  Bytes are `Nat`.
The external gzip decompressor (`flate2::read::GzDecoder`) is not part of
this repository; it is modelled from the spec as a deterministic
byte-at-a-time automaton (`Dcmp`) that consumes the compressed stream and
signals its logical end exactly at the member's final byte.
-/

namespace Rq

/-- One poll outcome of the underlying chunk stream (the hyper body):
a data chunk, an error, or not-ready; the end of the list is the
end-of-stream marker. -/
inductive PollEvent where
  | chunk (data : List Nat)
  | perr
  | pend
deriving DecidableEq, Repr

/-- `ReadState` from decoder.rs (lines 253-260): the buffered-chunk state of
`ReadableChunks`. -/
inductive ReadState where
  | ready (c : List Nat)
  | notReady
  | eof
deriving DecidableEq, Repr

/-- `ReadableChunks` (decoder.rs 248-251), with the wrapped stream embedded
as the list of its future poll outcomes. -/
structure RC where
  state : ReadState
  events : List PollEvent
deriving DecidableEq, Repr

/-- `StreamState` from decoder.rs (lines 262-267). -/
inductive StreamState where
  | hasMore
  | seof
deriving DecidableEq, Repr

/-- Result of one `poll_stream` call: ready with a stream state, not ready,
or a stream error. -/
inductive PollStreamRes where
  | ready (s : StreamState)
  | pend
  | perr
deriving DecidableEq, Repr

/-- `ReadableChunks::poll_next` (decoder.rs 334-351): poll the inner stream
once and update the read state. -/
def RC.pollStream (rc : RC) : PollStreamRes × RC :=
  match rc.events with
  | [] => (.ready .seof, ⟨.eof, []⟩)
  | .chunk c :: rest => (.ready .hasMore, ⟨.ready c, rest⟩)
  | .pend :: rest => (.pend, ⟨rc.state, rest⟩)
  | .perr :: rest => (.perr, ⟨rc.state, rest⟩)

/-- Result of a `Read::read` call: `Ok` with the bytes copied out, a
would-block error, or another I/O error. -/
inductive ReadResult where
  | ok (bytes : List Nat)
  | wouldBlock
  | ioError
deriving DecidableEq, Repr

/-- The `ReadState::Ready` arm of `ReadableChunks::read` (decoder.rs
294-304): copy `min (buf.len, chunk.remaining)` bytes, advance the chunk,
and fall back to `NotReady` when the chunk is exhausted. -/
def readReady (c : List Nat) (evs : List PollEvent) (bufLen : Nat) :
    ReadResult × RC :=
  let len := min bufLen c.length
  if (c.drop len).isEmpty then (.ok (c.take len), ⟨.notReady, evs⟩)
  else (.ok (c.take len), ⟨.ready (c.drop len), evs⟩)

/-- `ReadableChunks::read` (decoder.rs 290-324).  The source loop visits at
most two states per call: a `NotReady` reader that receives a chunk
continues straight into the `Ready` arm, and the `Ready` arm always
returns. -/
def RC.read (rc : RC) (bufLen : Nat) : ReadResult × RC :=
  match rc.state with
  | .ready c => readReady c rc.events bufLen
  | .notReady =>
    match rc.events with
    | [] => (.ok [], ⟨.eof, []⟩)
    | .chunk c :: rest => readReady c rest bufLen
    | .pend :: rest => (.wouldBlock, ⟨.notReady, rest⟩)
    | .perr :: rest => (.ioError, ⟨.notReady, rest⟩)
  | .eof => (.ok [], rc)

/-! ### The hyper body and the header map -/

/-- The hyper `Body`, embedded as its future poll outcomes plus the
content length it reports. -/
structure Body where
  events : List PollEvent
  contentLength : Option Nat
deriving DecidableEq, Repr

/-- `Body::empty()`. -/
def Body.empty : Body := ⟨[], some 0⟩

/-- The header map, restricted to the three headers `detect` reads
(`Content-Encoding`, `Transfer-Encoding`, `Content-Length`, each
multi-valued, `get` returning the first value) plus the untouched
remainder of the map. -/
structure HeaderMap where
  contentEncoding : List String
  transferEncoding : List String
  contentLength : List String
  other : List (String × String)
deriving DecidableEq, Repr

/-! ### The external gzip decompressor, modelled from the spec -/

/-- One step of the decompressor on one compressed byte: either consume the
byte, produce some output bytes and continue, or consume the byte, produce
some output bytes and declare the compressed stream complete. -/
inductive DStep (σ : Type) where
  | more (s : σ) (out : List Nat)
  | done (out : List Nat)

/-- Modelled from the spec: the external `flate2::read::GzDecoder` is not
code of this repository.  Following spec section 4.3, it is a deterministic
decompressor that reads compressed bytes from the wrapped reader as needed,
writes decompressed bytes into the caller's buffer, and signals its logical
end-of-stream exactly when the compressed member's final byte has been
consumed, leaving any trailing bytes unread in the wrapped reader. -/
structure Dcmp (σ : Type) where
  init : σ
  step : σ → Nat → DStep σ

/-- Complete-stream decode: `runD d s c = some P` states that the
decompressor started in state `s` consumes exactly the whole byte list `c`,
reaches its logical end on the final byte of `c`, and emits `P` in total.
This is what "`c` is a correct gzip compression of `P`" means for the
modelled decompressor. -/
def Dcmp.runD (d : Dcmp σ) : σ → List Nat → Option (List Nat)
  | _, [] => none
  | s, b :: rest =>
    match d.step s b with
    | .more s' out => if rest.isEmpty then none else (d.runD s' rest).map (out ++ ·)
    | .done out => if rest.isEmpty then some out else none

/-- The running decompressor half of `GzDecoder`: `st = some s` is a
decompressor still consuming input, `st = none` one that has declared
end-of-stream; `out` holds decompressed bytes produced but not yet copied
into a caller's buffer. -/
structure GzDec (σ : Type) where
  st : Option σ
  out : List Nat

/-- Size of one stream poll outcome, counting the bytes a chunk carries. -/
def PollEvent.size : PollEvent → Nat
  | .chunk c => c.length + 1
  | .perr => 1
  | .pend => 1

/-- Bytes buffered in the read state. -/
def ReadState.bytes : ReadState → Nat
  | .ready c => c.length
  | .notReady => 0
  | .eof => 0

/-- Total measure of a reader: buffered bytes plus the size of every
future poll outcome.  Each byte the decompressor pulls strictly shrinks
it. -/
def RC.mu (rc : RC) : Nat := rc.state.bytes + (rc.events.map PollEvent.size).sum

/-- Modelled from the spec: `GzDecoder::read` (external `flate2`), reading
compressed bytes one at a time from the wrapped `ReadableChunks` and
returning decompressed bytes, at most `bufLen` per call.  A zero-byte `Ok`
return means the decompressor's logical end-of-stream; a reader that hits
end-of-file before that point is a truncated stream, surfaced as an I/O
error.  `fuel` bounds the internal pull loop; `gzRead` supplies enough. -/
def gzReadAux (d : Dcmp σ) : Nat → GzDec σ → RC → Nat → ReadResult × GzDec σ × RC
  | 0, g, rc, _ => (.ioError, g, rc)
  | fuel + 1, g, rc, bufLen =>
    if g.out ≠ [] then (.ok (g.out.take bufLen), ⟨g.st, g.out.drop bufLen⟩, rc)
    else
      match g.st with
      | none => (.ok [], g, rc)
      | some s =>
        match RC.read rc 1 with
        | (.ok [], rc') => (.ioError, g, rc')
        | (.ok (b :: _), rc') =>
          match d.step s b with
          | .more s' o =>
            if o.isEmpty then gzReadAux d fuel ⟨some s', []⟩ rc' bufLen
            else (.ok (o.take bufLen), ⟨some s', o.drop bufLen⟩, rc')
          | .done o => (.ok (o.take bufLen), ⟨none, o.drop bufLen⟩, rc')
        | (.wouldBlock, rc') => (.wouldBlock, g, rc')
        | (.ioError, rc') => (.ioError, g, rc')

/-- `GzDecoder::read` with the pull loop's fuel chosen large enough that it
never runs out (one unit per byte or event the reader can ever deliver). -/
def gzRead (d : Dcmp σ) (g : GzDec σ) (rc : RC) (bufLen : Nat) :
    ReadResult × GzDec σ × RC :=
  gzReadAux d (rc.mu + 1) g rc bufLen

/-! ### The scratch buffer (`BytesMut`) and the Gzip stage -/

/-- `INIT_BUFFER_SIZE` (decoder.rs 39). -/
def INIT_BUFFER_SIZE : Nat := 8192

/-- The `BytesMut` scratch buffer: its readable content and its total
capacity. -/
structure BytesM where
  data : List Nat
  cap : Nat
deriving DecidableEq, Repr

/-- `BytesMut::remaining_mut`: free capacity past the readable content. -/
def BytesM.remainingMut (b : BytesM) : Nat := b.cap - b.data.length

/-- `BytesMut::reserve n`: ensure capacity for `n` more bytes. -/
def BytesM.reserve (b : BytesM) (n : Nat) : BytesM :=
  ⟨b.data, max b.cap (b.data.length + n)⟩

/-- `BytesMut::advance_mut` after bytes were written into the spare
capacity: the written bytes become readable content. -/
def BytesM.advanceMut (b : BytesM) (bytes : List Nat) : BytesM :=
  ⟨b.data ++ bytes, b.cap⟩

/-- `BytesMut::split_to n` followed by `freeze`: the first `n` readable
bytes leave as a chunk, the buffer keeps the rest (and the corresponding
capacity). -/
def BytesM.splitTo (b : BytesM) (n : Nat) : List Nat × BytesM :=
  (b.data.take n, ⟨b.data.drop n, b.cap - n⟩)

/-- The `Gzip` struct (decoder.rs 64-67): the boxed `GzDecoder` over a
`ReadableChunks<Body>`, plus the scratch buffer. -/
structure GzipSt (σ : Type) where
  dec : GzDec σ
  reader : RC
  buf : BytesM

/-- `Gzip::new` (decoder.rs 198-203). -/
def Gzip.new (d : Dcmp σ) (stream : RC) : GzipSt σ :=
  ⟨⟨some d.init, []⟩, stream, ⟨[], INIT_BUFFER_SIZE⟩⟩

/-- Error classes a decoded stream can surface: the `InvalidData` framing
error from decoder.rs 233-236, or any other I/O error. -/
inductive GErr where
  | invalidData
  | ioError
deriving DecidableEq, Repr

/-- One poll outcome of a decoded chunk stream. -/
inductive DPoll where
  | item (c : List Nat)
  | errItem (e : GErr)
  | done
  | pending
deriving DecidableEq, Repr

/-- The buffer-growth step at the top of `Gzip::poll_next` (decoder.rs
210-212): when the free capacity is exhausted, reserve the fixed
`INIT_BUFFER_SIZE` increment. -/
def Gzip.reserveIfFull (buf : BytesM) : BytesM :=
  if buf.remainingMut = 0 then buf.reserve INIT_BUFFER_SIZE else buf

/-- `Gzip::poll_next` (decoder.rs 209-244): grow the scratch buffer when
its free capacity is exhausted, decompress into the free capacity, and
either emit the produced bytes as one chunk, or, on a zero-byte
decompression result, probe the raw underlying reader with one 1-byte read
to distinguish clean completion from trailing data.  A would-block from
the reader surfaces as `pending`, any other I/O failure as an error item
(the `try_io!` behaviour, modelled from the spec since the macro is
outside these two files). -/
def Gzip.pollNext (d : Dcmp σ) (g : GzipSt σ) : DPoll × GzipSt σ :=
  let buf0 := Gzip.reserveIfFull g.buf
  match gzRead d g.dec g.reader buf0.remainingMut with
  | (.ok [], dec', rc') =>
    match RC.read rc' 1 with
    | (.ok [], rc'') => (.done, ⟨dec', rc'', buf0⟩)
    | (.ok (_ :: _), rc'') => (.errItem .invalidData, ⟨dec', rc'', buf0⟩)
    | (.wouldBlock, rc'') => (.pending, ⟨dec', rc'', buf0⟩)
    | (.ioError, rc'') => (.errItem .ioError, ⟨dec', rc'', buf0⟩)
  | (.ok (b :: bs), dec', rc') =>
    let buf1 := buf0.advanceMut (b :: bs)
    let split := buf1.splitTo (b :: bs).length
    (.item split.1, ⟨dec', rc', split.2⟩)
  | (.wouldBlock, dec', rc') => (.pending, ⟨dec', rc', buf0⟩)
  | (.ioError, dec', rc') => (.errItem .ioError, ⟨dec', rc', buf0⟩)

/-! ### The decoder state machine -/

/-- `Inner` (decoder.rs 48-55). -/
inductive Inner (σ : Type) where
  | plainText (body : Body)
  | gzip (g : GzipSt σ)
  | pending (body : RC)

/-- `Decoder` (decoder.rs 44-46). -/
structure Decoder (σ : Type) where
  inner : Inner σ

/-- `Decoder::plain_text` (decoder.rs 91-95). -/
def Decoder.plainText (body : Body) : Decoder σ := ⟨.plainText body⟩

/-- `Decoder::gzip` (decoder.rs 101-105): a gzip decoder starts in the
`Pending` state, wrapping the body in a fresh `ReadableChunks`. -/
def Decoder.gzipPending (body : Body) : Decoder σ :=
  ⟨.pending ⟨.notReady, body.events⟩⟩

/-- `Decoder::detect` (decoder.rs 113-146). -/
def detect (headers : HeaderMap) (body : Body) (checkGzip : Bool) :
    Decoder σ × HeaderMap :=
  if !checkGzip then (Decoder.plainText body, headers)
  else
    let contentEncodingGzip :=
      headers.contentEncoding.foldl (fun acc enc => acc || enc == "gzip") false
    let isGzip0 := contentEncodingGzip ||
      headers.transferEncoding.foldl (fun acc enc => acc || enc == "gzip") false
    let isGzip :=
      match headers.contentLength.head? with
      | some cl => if isGzip0 && cl == "0" then false else isGzip0
      | none => isGzip0
    let headers' :=
      if contentEncodingGzip then
        { headers with contentEncoding := [], contentLength := [] }
      else headers
    if isGzip then (Decoder.gzipPending body, headers')
    else (Decoder.plainText body, headers')

/-- `Decoder::content_length` (decoder.rs 149-154). -/
def Decoder.contentLength : Decoder σ → Option Nat
  | ⟨.plainText body⟩ => body.contentLength
  | ⟨.gzip _⟩ => none
  | ⟨.pending _⟩ => none

/-- Result of `Pending::poll`. -/
inductive PendRes (σ : Type) where
  | resolved (inner : Inner σ)
  | pend (body : RC)
  | failed (body : RC)

/-- `Pending::poll` (decoder.rs 182-194): probe the wrapped reader once;
end-of-stream resolves to plaintext over an empty body, an available chunk
resolves to gzip over the already-probed reader (buffered chunk intact),
not-ready stays pending, and a stream error propagates. -/
def Pending.poll (d : Dcmp σ) (body : RC) : PendRes σ :=
  match RC.pollStream body with
  | (.ready .seof, _) => .resolved (.plainText Body.empty)
  | (.ready .hasMore, body') => .resolved (.gzip (Gzip.new d body'))
  | (.pend, body') => .pend body'
  | (.perr, body') => .failed body'

/-- The hyper body polled as a stream (the `Inner::PlainText` arm of
`Decoder::poll_next` forwards to it unchanged). -/
def Body.poll (b : Body) : DPoll × Body :=
  match b.events with
  | [] => (.done, ⟨[], b.contentLength⟩)
  | .chunk c :: rest => (.item c, ⟨rest, b.contentLength⟩)
  | .pend :: rest => (.pending, ⟨rest, b.contentLength⟩)
  | .perr :: rest => (.errItem .ioError, ⟨rest, b.contentLength⟩)

/-- Poll a resolved inner decoder once (the `self.poll()` re-entry after
`Pending` resolution in `Decoder::poll_next`; a resolved inner is never
`Pending` again). -/
def Inner.pollOnce (d : Dcmp σ) : Inner σ → DPoll × Inner σ
  | .plainText body =>
    let r := body.poll
    (r.1, .plainText r.2)
  | .gzip g =>
    let r := Gzip.pollNext d g
    (r.1, .gzip r.2)
  | .pending body => (.pending, .pending body)

/-- `Decoder::poll_next` (decoder.rs 160-176): a pending decoder polls the
probe and, once resolved, installs the new inner value and immediately
polls it; plaintext and gzip decoders forward to their own `poll`. -/
def Decoder.pollNext (d : Dcmp σ) (dec : Decoder σ) : DPoll × Decoder σ :=
  match dec.inner with
  | .pending body =>
    match Pending.poll d body with
    | .resolved inner =>
      let r := inner.pollOnce d
      (r.1, ⟨r.2⟩)
    | .pend body' => (.pending, ⟨.pending body'⟩)
    | .failed body' => (.errItem .ioError, ⟨.pending body'⟩)
  | .plainText body =>
    let r := body.poll
    (r.1, ⟨.plainText r.2⟩)
  | .gzip g =>
    let r := Gzip.pollNext d g
    (r.1, ⟨.gzip r.2⟩)

/-- Drive a decoder to completion, collecting the emitted chunks; the
boolean records clean completion (`true`) versus an error item (`false`).
`none` means the fuel ran out or the decoder reported not-ready. -/
def runDecoder (d : Dcmp σ) : Nat → Decoder σ → Option (List (List Nat) × Bool)
  | 0, _ => none
  | fuel + 1, dec =>
    match Decoder.pollNext d dec with
    | (.item c, dec') => (runDecoder d fuel dec').map (fun r => (c :: r.1, r.2))
    | (.done, _) => some ([], true)
    | (.errItem _, _) => some ([], false)
    | (.pending, _) => none

/-- Drive a raw body to completion the same way, for comparison with a
plaintext decoder. -/
def runBody : Nat → Body → Option (List (List Nat) × Bool)
  | 0, _ => none
  | fuel + 1, b =>
    match Body.poll b with
    | (.item c, b') => (runBody fuel b').map (fun r => (c :: r.1, r.2))
    | (.done, _) => some ([], true)
    | (.errItem _, _) => some ([], false)
    | (.pending, _) => none

/-! ### The blocking bridge (`wait.rs`) -/

/-- `Waited` (wait.rs 43-47). -/
inductive Waited (ε : Type) where
  | timedOut
  | err (e : ε)
deriving DecidableEq, Repr

/-- One poll outcome of the future driven by `wait::timeout`. -/
inductive FPoll (α ε : Type) where
  | ready (v : α)
  | fail (e : ε)
  | pend
deriving DecidableEq, Repr

/-- One poll outcome of the stream driven by `WaitStream::next`. -/
inductive SPoll (α ε : Type) where
  | item (v : α)
  | done
  | fail (e : ε)
  | pend
deriving DecidableEq, Repr

/-- The deadline loop of `wait::timeout` (wait.rs 18-29), embedded over a
schedule pairing each loop iteration's clock reading with the outcome the
future's poll would give at that iteration.  Each iteration first compares
the clock against the deadline and returns `TimedOut` if it has been
reached, before any poll; otherwise it polls, returning the value or the
underlying failure, or parking until the next iteration.  `none` means the
schedule ran out with the loop still parked. -/
def waitTimeout (deadline : Nat) :
    List (Nat × FPoll α ε) → Option (Except (Waited ε) α)
  | [] => none
  | (now, p) :: rest =>
    if deadline ≤ now then some (.error .timedOut)
    else
      match p with
      | .ready v => some (.ok v)
      | .fail e => some (.error (.err e))
      | .pend => waitTimeout deadline rest

/-- The deadline loop of `WaitStream::next` (wait.rs 71-84), embedded the
same way; `some none` is end-of-sequence. -/
def waitStreamNext (deadline : Nat) :
    List (Nat × SPoll α ε) → Option (Option (Except (Waited ε) α))
  | [] => none
  | (now, p) :: rest =>
    if deadline ≤ now then some (some (.error .timedOut))
    else
      match p with
      | .item v => some (some (.ok v))
      | .done => some none
      | .fail e => some (some (.error (.err e)))
      | .pend => waitStreamNext deadline rest

/-! ### Derived notions used to state the round-trip properties -/

/-- The bytes buffered in a read state. -/
def ReadState.chunkBytes : ReadState → List Nat
  | .ready c => c
  | .notReady => []
  | .eof => []

/-- All bytes the future poll outcomes of a stream carry. -/
def eventsBytes (evs : List PollEvent) : List Nat :=
  (evs.map (fun e => match e with | .chunk c => c | .perr => [] | .pend => [])).flatten

/-- All bytes a reader can still deliver: the buffered chunk followed by
every future chunk, in order. -/
def RC.flat (rc : RC) : List Nat := rc.state.chunkBytes ++ eventsBytes rc.events

/-- A wellformed reader as produced by delivering a compressed payload in
non-empty chunks with no errors and no not-ready gaps: the buffered chunk,
if any, is non-empty; every future poll outcome is a non-empty chunk; and
the terminal `Eof` state is only reached with the event list exhausted. -/
def goodRC (rc : RC) : Prop :=
  (∀ c, rc.state = .ready c → c ≠ []) ∧
  (∀ e ∈ rc.events, ∃ c, e = PollEvent.chunk c ∧ c ≠ []) ∧
  (rc.state = .eof → rc.events = [])

/-- Invariant tying a running `GzDecoder` to the plaintext `T` it has yet
to emit: either the decompressor is still running and decoding the
remaining reader content yields exactly the rest of `T` after the pending
output, or it has finished, the reader is drained, and only the pending
output remains. -/
def goodGz (d : Dcmp σ) (g : GzDec σ) (rc : RC) (T : List Nat) : Prop :=
  goodRC rc ∧
  match g.st with
  | some s => ∃ R, d.runD s rc.flat = some R ∧ T = g.out ++ R
  | none => rc.flat = [] ∧ T = g.out

/-! ## Theorems -/

/-! ### The reader and the decompressor pull loop -/

@[simp]
theorem eventsBytes_nil : eventsBytes [] = [] := rfl

@[simp]
theorem eventsBytes_cons_chunk (c : List Nat) (rest : List PollEvent) :
    eventsBytes (.chunk c :: rest) = c ++ eventsBytes rest := by
  simp [eventsBytes]

theorem eventsBytes_eq_nil_of_good (evs : List PollEvent)
    (hgood : ∀ e ∈ evs, ∃ c, e = PollEvent.chunk c ∧ c ≠ [])
    (hnil : eventsBytes evs = []) : evs = [] := by
  cases evs with
  | nil => rfl
  | cons e rest =>
    rcases hgood e (by simp) with ⟨c, rfl, hc⟩
    rw [eventsBytes_cons_chunk] at hnil
    exact absurd (List.append_eq_nil.mp hnil).1 hc

theorem take_ne_nil_bounds (c : List Nat) (len : Nat)
    (h : ¬ (c.take len = [])) : 1 ≤ len ∧ 1 ≤ c.length := by
  rw [List.take_eq_nil_iff] at h
  push_neg at h
  exact ⟨Nat.one_le_iff_ne_zero.mpr h.1, List.length_pos.mpr h.2⟩

theorem RC.read_mu_lt (rc : RC) (bufLen : Nat) (b : Nat) (l : List Nat) (rc' : RC)
    (hread : RC.read rc bufLen = (.ok (b :: l), rc')) : rc'.mu < rc.mu := by
  rcases rc with ⟨st, evs⟩
  cases st with
  | ready c =>
    simp only [RC.read, readReady] at hread
    split at hread <;>
    · injection hread with h1 h2
      injection h1 with h1
      have hb := take_ne_nil_bounds c (bufLen ⊓ c.length) (by rw [h1]; simp)
      rw [← h2]
      simp only [RC.mu, ReadState.bytes]
      have := List.length_drop (bufLen ⊓ c.length) c
      omega
  | notReady =>
    cases evs with
    | nil =>
      simp only [RC.read] at hread
      injection hread with h1 h2
      exact nomatch h1
    | cons e rest =>
      cases e with
      | chunk c =>
        simp only [RC.read, readReady] at hread
        split at hread <;>
        · injection hread with h1 h2
          rw [← h2]
          simp only [RC.mu, ReadState.bytes, List.map_cons, List.sum_cons, PollEvent.size]
          have := List.length_drop (bufLen ⊓ c.length) c
          omega
      | pend =>
        simp only [RC.read] at hread
        exact nomatch congrArg Prod.fst hread
      | perr =>
        simp only [RC.read] at hread
        exact nomatch congrArg Prod.fst hread
  | eof =>
    simp only [RC.read] at hread
    injection hread with h1 h2
    exact nomatch h1



theorem read1_empty (rc : RC) (hgood : goodRC rc) (hflat : rc.flat = []) :
    ∃ rc', RC.read rc 1 = (.ok [], rc') ∧ goodRC rc' ∧ rc'.flat = [] := by
  rcases rc with ⟨st, evs⟩
  rcases hgood with ⟨hready, hchunks, heof⟩
  cases st with
  | ready c =>
    have hc := hready c rfl
    simp only [RC.flat, ReadState.chunkBytes] at hflat
    exact absurd (List.append_eq_nil.mp hflat).1 hc
  | notReady =>
    simp only [RC.flat, ReadState.chunkBytes, List.nil_append] at hflat
    have hevs := eventsBytes_eq_nil_of_good evs hchunks hflat
    subst hevs
    refine ⟨⟨.eof, []⟩, rfl, ?_, rfl⟩
    unfold goodRC
    exact ⟨fun c h => (nomatch h), fun e h => (nomatch h), fun _ => rfl⟩
  | eof =>
    have hevs := heof rfl
    subst hevs
    refine ⟨⟨.eof, []⟩, rfl, ?_, rfl⟩
    unfold goodRC
    exact ⟨fun c h => (nomatch h), fun e h => (nomatch h), fun _ => rfl⟩

theorem readReady_one (c : List Nat) (evs : List PollEvent) (b : Nat) (t : List Nat)
    (hchunks : ∀ e ∈ evs, ∃ c', e = PollEvent.chunk c' ∧ c' ≠ [])
    (hc : c ++ eventsBytes evs = b :: t) (hne : c ≠ []) :
    ∃ rc', readReady c evs 1 = (.ok [b], rc') ∧ goodRC rc' ∧ rc'.flat = t := by
  rcases c with _ | ⟨b0, c'⟩
  · exact absurd rfl hne
  simp only [List.cons_append, List.cons.injEq] at hc
  rcases hc with ⟨rfl, hc⟩
  simp only [readReady, List.length_cons, List.take_succ_cons, List.take_zero,
    List.drop_succ_cons, List.drop_zero]
  have hmin : min 1 (c'.length + 1) = 1 := by omega
  rw [hmin]
  cases c' with
  | nil =>
    simp only [List.drop_succ_cons, List.drop_zero, List.isEmpty_nil, if_true]
    refine ⟨⟨.notReady, evs⟩, by simp, ?_, ?_⟩
    · unfold goodRC
      exact ⟨fun c h => (nomatch h), hchunks, fun h => nomatch h⟩
    · simpa [RC.flat, ReadState.chunkBytes] using hc
  | cons b1 c'' =>
    simp only [List.drop_succ_cons, List.drop_zero, List.isEmpty_cons, if_false]
    refine ⟨⟨.ready (b1 :: c''), evs⟩, by simp, ?_, ?_⟩
    · unfold goodRC
      refine ⟨fun c h => ?_, hchunks, fun h => nomatch h⟩
      injection h with h
      subst h
      simp
    · simpa [RC.flat, ReadState.chunkBytes] using hc

theorem read1_cons (rc : RC) (b : Nat) (t : List Nat)
    (hgood : goodRC rc) (hflat : rc.flat = b :: t) :
    ∃ rc', RC.read rc 1 = (.ok [b], rc') ∧ goodRC rc' ∧ rc'.flat = t ∧ rc'.mu < rc.mu := by
  rcases hgood with ⟨hready, hchunks, heof⟩
  rcases rc with ⟨st, evs⟩
  cases st with
  | ready c =>
    have hc := hready c rfl
    simp only [RC.flat, ReadState.chunkBytes] at hflat
    rcases readReady_one c evs b t hchunks hflat hc with ⟨rc', hr, hg, hf⟩
    refine ⟨rc', by simpa [RC.read] using hr, hg, hf, ?_⟩
    exact RC.read_mu_lt ⟨.ready c, evs⟩ 1 b [] rc' (by simpa [RC.read] using hr)
  | notReady =>
    simp only [RC.flat, ReadState.chunkBytes, List.nil_append] at hflat
    cases evs with
    | nil => simp at hflat
    | cons e rest =>
      rcases hchunks e (by simp) with ⟨c, rfl, hc⟩
      rw [eventsBytes_cons_chunk] at hflat
      have hchunks' : ∀ e ∈ rest, ∃ c', e = PollEvent.chunk c' ∧ c' ≠ [] :=
        fun e he => hchunks e (by simp [he])
      rcases readReady_one c rest b t hchunks' hflat hc with ⟨rc', hr, hg, hf⟩
      refine ⟨rc', by simpa [RC.read] using hr, hg, hf, ?_⟩
      exact RC.read_mu_lt ⟨.notReady, .chunk c :: rest⟩ 1 b [] rc' (by simpa [RC.read] using hr)
  | eof =>
    have hevs := heof rfl
    subst hevs
    simp [RC.flat, ReadState.chunkBytes] at hflat



theorem take_nonempty (o : List Nat) (bufLen : Nat) (ho : o ≠ []) (hb : 1 ≤ bufLen) :
    o.take bufLen ≠ [] := by
  intro h
  rcases List.take_eq_nil_iff.mp h with h' | h'
  · omega
  · exact ho h'

theorem gzReadAux_good (σ : Type) (d : Dcmp σ) :
    ∀ (fuel : Nat) (g : GzDec σ) (rc : RC) (T : List Nat) (bufLen : Nat),
    goodGz d g rc T → 1 ≤ bufLen → rc.mu + 1 ≤ fuel →
    ∃ bytes g' rc', gzReadAux d fuel g rc bufLen = (.ok bytes, g', rc') ∧
      ∃ T', T = bytes ++ T' ∧ goodGz d g' rc' T' ∧
        (bytes = [] → T = [] ∧ g'.st = none) := by
  intro fuel
  induction fuel with
  | zero =>
    intro g rc T bufLen hgood hbuf hfuel
    omega
  | succ n ih =>
    intro g rc T bufLen hgood hbuf hfuel
    rcases g with ⟨st, out⟩
    rcases hgood with ⟨hrc, hinv⟩
    simp only [gzReadAux]
    by_cases hout : out = []
    · subst hout
      rw [if_neg (by simp)]
      cases st with
      | none =>
        rcases hinv with ⟨hfl, hT⟩
        replace hT : T = [] := by simpa using hT
        refine ⟨[], ⟨none, []⟩, rc, rfl, [], by simpa using hT, ⟨hrc, hfl, by simpa using hT⟩,
          fun _ => ⟨hT, rfl⟩⟩
      | some s =>
        rcases hinv with ⟨R, hrun, hT⟩
        replace hT : T = R := by simpa using hT
        rcases hfl : rc.flat with _ | ⟨b, t⟩
        · rw [hfl] at hrun
          exact absurd hrun (by simp [Dcmp.runD])
        rcases read1_cons rc b t ⟨hrc.1, hrc.2.1, hrc.2.2⟩ hfl with ⟨rc1, hread, hg1, hf1, hmu1⟩
        simp only [hread]
        rw [hfl] at hrun
        simp only [Dcmp.runD] at hrun
        cases hstep : d.step s b with
        | more s' o =>
          rw [hstep] at hrun
          cases t with
          | nil => simp at hrun
          | cons t0 ts =>
            simp only [List.isEmpty_cons, Bool.false_eq_true, if_false,
              Option.map_eq_some'] at hrun
            rcases hrun with ⟨R1, hrun1, hR⟩
            cases o with
            | nil =>
              simp only [List.isEmpty_nil, if_true]
              replace hR : R1 = R := by simpa using hR
              have hgood1 : goodGz d ⟨some s', []⟩ rc1 R1 := by
                refine ⟨hg1, R1, ?_, rfl⟩
                rw [hf1]
                exact hrun1
              have hrec := ih ⟨some s', []⟩ rc1 R1 bufLen hgood1 hbuf (by omega)
              rcases hrec with ⟨bytes, g', rc', hrec, T', hT', hgood', hempty⟩
              refine ⟨bytes, g', rc', hrec, T', ?_, hgood', ?_⟩
              · rw [hT, ← hR]
                exact hT'
              · intro hb
                rcases hempty hb with ⟨h1, h2⟩
                exact ⟨by rw [hT, ← hR, h1], h2⟩
            | cons o0 os =>
              simp only [List.isEmpty_cons, Bool.false_eq_true, if_false]
              refine ⟨(o0 :: os).take bufLen, ⟨some s', (o0 :: os).drop bufLen⟩, rc1, rfl,
                (o0 :: os).drop bufLen ++ R1, ?_, ?_, ?_⟩
              · rw [hT, ← hR, ← List.append_assoc, List.take_append_drop]
              · refine ⟨hg1, R1, ?_, rfl⟩
                rw [hf1]
                exact hrun1
              · intro hb
                exact absurd hb (take_nonempty (o0 :: os) bufLen (by simp) hbuf)
        | done o =>
          rw [hstep] at hrun
          cases t with
          | cons t0 ts => simp at hrun
          | nil =>
            simp only [List.isEmpty_nil, if_true, Option.some.injEq] at hrun
            subst hrun
            refine ⟨o.take bufLen, ⟨none, o.drop bufLen⟩, rc1, rfl, o.drop bufLen, ?_, ?_, ?_⟩
            · rw [hT, List.take_append_drop]
            · exact ⟨hg1, hf1, rfl⟩
            · intro hb
              have ho : o = [] := by
                rcases List.take_eq_nil_iff.mp hb with h' | h'
                · omega
                · exact h'
              subst ho
              exact ⟨by simpa using hT, rfl⟩
    · rw [if_pos hout]
      cases st with
      | some s =>
        rcases hinv with ⟨R, hrun, hT⟩
        replace hT : T = out ++ R := hT
        refine ⟨out.take bufLen, ⟨some s, out.drop bufLen⟩, rc, rfl,
          out.drop bufLen ++ R, ?_, ⟨hrc, R, hrun, rfl⟩, ?_⟩
        · rw [hT, ← List.append_assoc, List.take_append_drop]
        · intro hb
          exact absurd hb (take_nonempty out bufLen hout hbuf)
      | none =>
        rcases hinv with ⟨hfl, hT⟩
        replace hT : T = out := hT
        refine ⟨out.take bufLen, ⟨none, out.drop bufLen⟩, rc, rfl,
          out.drop bufLen, ?_, ⟨hrc, hfl, rfl⟩, ?_⟩
        · rw [hT, List.take_append_drop]
        · intro hb
          exact absurd hb (take_nonempty out bufLen hout hbuf)

/-! ### Header detection -/

theorem foldl_or_gzip (l : List String) (acc : Bool) :
    l.foldl (fun a e => a || e == "gzip") acc = (acc || l.any (fun e => e == "gzip")) := by
  induction l generalizing acc with
  | nil => simp
  | cons x xs ih => simp [List.foldl_cons, ih, Bool.or_assoc]

theorem any_gzip (l : List String) :
    l.any (fun e => e == "gzip") = true ↔ "gzip" ∈ l := by
  rw [List.any_eq_true]
  constructor
  · rintro ⟨x, hx, he⟩
    rw [beq_iff_eq] at he
    exact he ▸ hx
  · intro h
    exact ⟨"gzip", h, by simp⟩

theorem any_gzip_false (l : List String) :
    l.any (fun e => e == "gzip") = false ↔ "gzip" ∉ l := by
  rw [← Bool.not_eq_true, not_iff_not, any_gzip]

/-- Characterization of `detect` with codec checking enabled: the decoder
is the pending gzip one exactly when some `Content-Encoding` or
`Transfer-Encoding` value is `"gzip"` and the first `Content-Length` value
is not `"0"`; the headers lose `Content-Encoding` and `Content-Length`
exactly when some `Content-Encoding` value is `"gzip"`. -/
theorem detect_true_eq (σ : Type) (hdr : HeaderMap) (body : Body) :
    detect (σ := σ) hdr body true =
      (if ("gzip" ∈ hdr.contentEncoding ∨ "gzip" ∈ hdr.transferEncoding)
          ∧ hdr.contentLength.head? ≠ some "0"
        then Decoder.gzipPending body else Decoder.plainText body,
       if "gzip" ∈ hdr.contentEncoding
        then { hdr with contentEncoding := [], contentLength := [] } else hdr) := by
  simp only [detect, Bool.not_true, Bool.false_eq_true, if_false, foldl_or_gzip, Bool.false_or]
  cases hA : hdr.contentEncoding.any (fun e => e == "gzip") <;>
    cases hB : hdr.transferEncoding.any (fun e => e == "gzip")
  case false.false =>
    have hc := (any_gzip_false _).mp hA
    have ht := (any_gzip_false _).mp hB
    rcases hcl : hdr.contentLength.head? with _ | cl <;> simp [hc, ht]
  case false.true =>
    have hc := (any_gzip_false _).mp hA
    have ht := (any_gzip _).mp hB
    rcases hcl : hdr.contentLength.head? with _ | cl
    · simp [hc, ht]
    · rcases h0 : (cl == "0") with _ | _
      · rw [beq_eq_false_iff_ne] at h0
        simp [hc, ht, h0]
      · rw [beq_iff_eq] at h0
        simp [hc, ht, h0]
  case true.false =>
    have hc := (any_gzip _).mp hA
    have ht := (any_gzip_false _).mp hB
    rcases hcl : hdr.contentLength.head? with _ | cl
    · simp [hc, ht]
    · rcases h0 : (cl == "0") with _ | _
      · rw [beq_eq_false_iff_ne] at h0
        simp [hc, ht, h0]
      · rw [beq_iff_eq] at h0
        simp [hc, ht, h0]
  case true.true =>
    have hc := (any_gzip _).mp hA
    have ht := (any_gzip _).mp hB
    rcases hcl : hdr.contentLength.head? with _ | cl
    · simp [hc, ht]
    · rcases h0 : (cl == "0") with _ | _
      · rw [beq_eq_false_iff_ne] at h0
        simp [hc, ht, h0]
      · rw [beq_iff_eq] at h0
        simp [hc, ht, h0]

/-- Claim C4: when some Content-Encoding or Transfer-Encoding value equals
"gzip" but the Content-Length header is present with first value "0",
`detect` with codec checking enabled constructs a PlainText decoder (the
gzip choice is downgraded), and when Content-Encoding contained "gzip" the
Content-Encoding and Content-Length headers are still removed from the
map. -/
theorem c4_length_zero_downgrade (σ : Type) (hdr : HeaderMap) (body : Body)
    (hgz : "gzip" ∈ hdr.contentEncoding ∨ "gzip" ∈ hdr.transferEncoding)
    (hcl : hdr.contentLength.head? = some "0") :
    (detect (σ := σ) hdr body true).1 = Decoder.plainText body ∧
    ("gzip" ∈ hdr.contentEncoding →
      (detect (σ := σ) hdr body true).2.contentEncoding = [] ∧
      (detect (σ := σ) hdr body true).2.contentLength = []) := by
  rw [detect_true_eq]
  refine ⟨by simp [hcl], fun hce => by simp [hce]⟩

/-- Witness for C4 at headers `{Content-Encoding: gzip, Content-Length: 0}`. -/
theorem c4_witness :
    ((("gzip" : String) ∈ ["gzip"] ∨ ("gzip" : String) ∈ ([] : List String)) ∧
      (["0"] : List String).head? = some "0") ∧
    (detect (σ := Unit) ⟨["gzip"], [], ["0"], []⟩ ⟨[.chunk [1]], some 0⟩ true).1
        = Decoder.plainText ⟨[.chunk [1]], some 0⟩ ∧
    (detect (σ := Unit) ⟨["gzip"], [], ["0"], []⟩ ⟨[.chunk [1]], some 0⟩ true).2.contentEncoding
        = [] ∧
    (detect (σ := Unit) ⟨["gzip"], [], ["0"], []⟩ ⟨[.chunk [1]], some 0⟩ true).2.contentLength
        = [] := by
  refine ⟨⟨Or.inl (by simp), rfl⟩, ?_⟩
  have h := c4_length_zero_downgrade Unit ⟨["gzip"], [], ["0"], []⟩ ⟨[.chunk [1]], some 0⟩
    (Or.inl (by simp)) rfl
  exact ⟨h.1, (h.2 (by simp)).1, (h.2 (by simp)).2⟩

/-- Counterexample to claim C5 as stated: with gzip indicated only via
Transfer-Encoding but Content-Length "0", the decoder is PlainText, not
gzip (the header map is indeed left unchanged). -/
theorem c5_counterexample :
    (detect (σ := Unit) ⟨[], ["gzip"], ["0"], []⟩ ⟨[], none⟩ true).1
        = Decoder.plainText ⟨[], none⟩ ∧
    (detect (σ := Unit) ⟨[], ["gzip"], ["0"], []⟩ ⟨[], none⟩ true).2
        = ⟨[], ["gzip"], ["0"], []⟩ :=
  ⟨rfl, rfl⟩

/-- Claim C5, amended: `detect` mutates the header map exactly when
check_gzip is true and some Content-Encoding value equals "gzip"
(regardless of the Content-Length "0" downgrade), in which case it removes
Content-Encoding and Content-Length and nothing else; when gzip is
indicated only via Transfer-Encoding and the Content-Length "0" downgrade
does not apply, the decoder is constructed for gzip and the header map is
left unchanged. -/
theorem c5_header_mutation (σ : Type) (hdr : HeaderMap) (body : Body) (check : Bool) :
    ((detect (σ := σ) hdr body check).2 =
      if check = true ∧ "gzip" ∈ hdr.contentEncoding then
        { hdr with contentEncoding := [], contentLength := [] }
      else hdr) ∧
    (check = true → "gzip" ∈ hdr.contentEncoding →
      (detect (σ := σ) hdr body check).2 ≠ hdr) ∧
    ("gzip" ∉ hdr.contentEncoding → "gzip" ∈ hdr.transferEncoding →
      hdr.contentLength.head? ≠ some "0" →
      (detect (σ := σ) hdr body true).1 = Decoder.gzipPending body ∧
      (detect (σ := σ) hdr body true).2 = hdr) := by
  refine ⟨?_, ?_, ?_⟩
  · cases check with
    | false => simp [detect]
    | true =>
      rw [detect_true_eq]
      by_cases hce : "gzip" ∈ hdr.contentEncoding <;> simp [hce]
  · intro hc hce
    rw [hc, detect_true_eq]
    simp only [hce, and_true, true_and, if_pos]
    intro heq
    have : hdr.contentEncoding = [] := by
      have := congrArg HeaderMap.contentEncoding heq
      simpa using this.symm
    rw [this] at hce
    exact absurd hce (List.not_mem_nil _)
  · intro hce hte hcl
    rw [detect_true_eq]
    simp [hce, hte, hcl]

/-- Witness for C5 (amended) at a Transfer-Encoding-only gzip header map
with a non-"0" Content-Length. -/
theorem c5_witness :
    (detect (σ := Unit) ⟨[], ["gzip"], ["5"], []⟩ ⟨[], none⟩ true).1
        = Decoder.gzipPending ⟨[], none⟩ ∧
    (detect (σ := Unit) ⟨[], ["gzip"], ["5"], []⟩ ⟨[], none⟩ true).2
        = ⟨[], ["gzip"], ["5"], []⟩ :=
  (c5_header_mutation Unit ⟨[], ["gzip"], ["5"], []⟩ ⟨[], none⟩ true).2.2
    (by simp) (by simp) (by simp)

/-- Claim C6: with codec checking disabled, `detect` yields a PlainText
decoder over the unchanged body and leaves the headers untouched,
regardless of their values, and a PlainText decoder forwards the
underlying chunk sequence unchanged. -/
theorem c6_no_check_plaintext (σ : Type) :
    (∀ (hdr : HeaderMap) (body : Body),
      detect (σ := σ) hdr body false = (Decoder.plainText body, hdr)) ∧
    (∀ (n : Nat) (d : Dcmp σ) (body : Body),
      runDecoder d n ⟨.plainText body⟩ = runBody n body) := by
  constructor
  · intro hdr body
    simp [detect]
  · intro n d
    induction n with
    | zero => intro body; rfl
    | succ k ih =>
      intro body
      simp only [runDecoder, runBody, Decoder.pollNext]
      rcases h : body.poll with ⟨p, b'⟩
      cases p <;> simp [h, ih]

/-- Claim C10: `content_length` returns `none` unless the decoder is in
the PlainText state; a decoder that detected gzip (Pending or resolved
Gzip) always reports no content length, even when the original headers
carried one. -/
theorem c10_content_length_none (σ : Type) :
    (∀ rc : RC, (⟨Inner.pending rc⟩ : Decoder σ).contentLength = none) ∧
    (∀ g : GzipSt σ, (⟨Inner.gzip g⟩ : Decoder σ).contentLength = none) ∧
    (∀ body : Body,
      (⟨Inner.plainText body⟩ : Decoder σ).contentLength = body.contentLength) ∧
    (∀ (hdr : HeaderMap) (body : Body),
      (detect (σ := σ) hdr body true).1.contentLength = none ∨
      (detect (σ := σ) hdr body true).1 = Decoder.plainText body) := by
  refine ⟨fun _ => rfl, fun _ => rfl, fun _ => rfl, fun hdr body => ?_⟩
  rw [detect_true_eq]
  by_cases h : ("gzip" ∈ hdr.contentEncoding ∨ "gzip" ∈ hdr.transferEncoding)
      ∧ hdr.contentLength.head? ≠ some "0"
  · exact Or.inl (by simp [h, Decoder.gzipPending, Decoder.contentLength])
  · exact Or.inr (by simp [h])

/-! ### Pending resolution -/

/-- Claim C2: the one-time probe of a Pending decoder resolves
end-of-stream-before-any-chunk to PlainText over an empty body, and an
available first chunk to Gzip over the already-probed reader with the
buffered chunk intact (no bytes lost); a resolved decoder (PlainText or
Gzip) never re-enters the Pending state. -/
theorem c2_pending_resolution (σ : Type) (d : Dcmp σ) :
    (∀ st : ReadState, Pending.poll d ⟨st, []⟩ = .resolved (.plainText Body.empty)) ∧
    (∀ (st : ReadState) (c : List Nat) (rest : List PollEvent),
      Pending.poll d ⟨st, .chunk c :: rest⟩
        = .resolved (.gzip (Gzip.new d ⟨.ready c, rest⟩))) ∧
    (∀ body : Body, ∃ body' : Body,
      (Decoder.pollNext d ⟨.plainText body⟩).2 = ⟨.plainText body'⟩) ∧
    (∀ g : GzipSt σ, ∃ g' : GzipSt σ,
      (Decoder.pollNext d ⟨.gzip g⟩).2 = ⟨.gzip g'⟩) :=
  ⟨fun _ => rfl, fun _ _ _ => rfl, fun body => ⟨body.poll.2, rfl⟩,
    fun g => ⟨(Gzip.pollNext d g).2, rfl⟩⟩

/-! ### The blocking bridge -/

/-- Claim C7: once the clock reaches or passes the deadline before the
underlying computation resolves, the bridge call returns TimedOut
immediately, before this iteration's poll and regardless of its outcome
and of the rest of the schedule — so a failure that becomes available at
or after the deadline is never reported, making TimedOut and the
underlying failure mutually exclusive per call. -/
theorem c7_timeout_priority (α ε : Type) (deadline now : Nat)
    (h : deadline ≤ now) :
    (∀ (p : FPoll α ε) (rest : List (Nat × FPoll α ε)),
      waitTimeout deadline ((now, p) :: rest) = some (.error .timedOut)) ∧
    (∀ (p : SPoll α ε) (rest : List (Nat × SPoll α ε)),
      waitStreamNext deadline ((now, p) :: rest) = some (some (.error .timedOut))) :=
  ⟨fun p rest => by simp [waitTimeout, h], fun p rest => by simp [waitStreamNext, h]⟩

/-- Witness for C7: at deadline 5 and clock 7 even an already-available
underlying failure is discarded in favour of TimedOut. -/
theorem c7_witness :
    (5 ≤ 7) ∧
    waitTimeout 5 [(7, FPoll.fail (α := Nat) (ε := Nat) 42)] = some (.error .timedOut) ∧
    waitStreamNext 5 [(7, SPoll.fail (α := Nat) (ε := Nat) 42)]
        = some (some (.error .timedOut)) :=
  ⟨by decide, (c7_timeout_priority Nat Nat 5 7 (by decide)).1 (.fail 42) [],
    (c7_timeout_priority Nat Nat 5 7 (by decide)).2 (.fail 42) []⟩

/-! ### ReadableChunks reads -/

/-- Counterexample to claim C8 as stated: an empty chunk delivered by the
underlying sequence makes `read` return zero bytes even though the
sequence still yields another (non-empty) chunk afterwards. -/
theorem c8_counterexample :
    RC.read ⟨.notReady, [.chunk [], .chunk [7]]⟩ 8
      = (.ok [], ⟨.notReady, [.chunk [7]]⟩) ∧
    RC.read ⟨.notReady, [.chunk [7]]⟩ 8 = (.ok [7], ⟨.notReady, []⟩) :=
  ⟨rfl, rfl⟩

/-- Claim C8, amended: provided every chunk the underlying sequence yields
is non-empty (and the buffered chunk, if any, is non-empty) and the read
buffer is non-empty, a successful zero-byte `read` occurs only when the
sequence is actually exhausted: the reader ends in the terminal Eof
state. -/
theorem c8_zero_read_eof (rc : RC) (bufLen : Nat)
    (hready : ∀ c, rc.state = .ready c → c ≠ [])
    (hchunks : ∀ c, PollEvent.chunk c ∈ rc.events → c ≠ [])
    (hbuf : 1 ≤ bufLen) (rc' : RC)
    (hread : RC.read rc bufLen = (.ok [], rc')) :
    rc'.state = .eof := by
  have hmin : ∀ c : List Nat, c ≠ [] → ¬ (c.take (min bufLen c.length) = []) := by
    intro c hc h
    rcases List.take_eq_nil_iff.mp h with h' | h'
    · rcases Nat.min_eq_zero_iff.mp h' with h'' | h''
      · omega
      · exact hc (List.length_eq_zero.mp h'')
    · exact hc h'
  rcases rc with ⟨st, evs⟩
  cases st with
  | ready c =>
    have hc := hready c rfl
    simp only [RC.read, readReady] at hread
    split at hread
    · exact absurd (congrArg Prod.fst hread) (by simpa using hmin c hc)
    · exact absurd (congrArg Prod.fst hread) (by simpa using hmin c hc)
  | notReady =>
    cases evs with
    | nil =>
      simp only [RC.read] at hread
      injection hread with h1 h2
      rw [← h2]
    | cons e rest =>
      cases e with
      | chunk c =>
        have hc := hchunks c (by simp)
        simp only [RC.read, readReady] at hread
        split at hread
        · exact absurd (congrArg Prod.fst hread) (by simpa using hmin c hc)
        · exact absurd (congrArg Prod.fst hread) (by simpa using hmin c hc)
      | pend => simp [RC.read] at hread
      | perr => simp [RC.read] at hread
  | eof =>
    simp only [RC.read] at hread
    injection hread with h1 h2
    rw [← h2]

/-- Witness for C8 (amended) at an exhausted underlying sequence. -/
theorem c8_witness :
    RC.read ⟨.notReady, []⟩ 8 = (.ok [], ⟨.eof, []⟩) ∧
    (⟨ReadState.eof, []⟩ : RC).state = .eof :=
  ⟨rfl, c8_zero_read_eof ⟨.notReady, []⟩ 8 (fun c h => nomatch h) (fun c h => nomatch h)
    (by decide) ⟨.eof, []⟩ rfl⟩


/-! ### The gzip stage and the round-trip -/

theorem reserveIfFull_data (buf : BytesM) : (Gzip.reserveIfFull buf).data = buf.data := by
  unfold Gzip.reserveIfFull
  split <;> rfl

theorem reserveIfFull_pos (buf : BytesM) (h : buf.data = []) :
    1 ≤ (Gzip.reserveIfFull buf).remainingMut := by
  unfold Gzip.reserveIfFull
  split <;> rename_i hc
  · simp only [BytesM.remainingMut, BytesM.reserve, h] at *
    simp [INIT_BUFFER_SIZE]
  · omega

theorem gzip_pollNext_good (σ : Type) (d : Dcmp σ) (g : GzipSt σ) (T : List Nat)
    (hgood : goodGz d g.dec g.reader T) (hbufdata : g.buf.data = []) :
    (T = [] → ∃ g', Gzip.pollNext d g = (.done, g')) ∧
    (T ≠ [] → ∃ bytes g', Gzip.pollNext d g = (.item bytes, g') ∧ bytes ≠ [] ∧
      ∃ T', T = bytes ++ T' ∧ goodGz d g'.dec g'.reader T' ∧ g'.buf.data = []) := by
  have hbufLen := reserveIfFull_pos g.buf hbufdata
  rcases gzReadAux_good σ d (g.reader.mu + 1) g.dec g.reader T
      (Gzip.reserveIfFull g.buf).remainingMut hgood hbufLen (by omega) with
    ⟨bytes, dec', rc', hgz, T', hT, hgood', hempty⟩
  have hgzr : gzRead d g.dec g.reader (Gzip.reserveIfFull g.buf).remainingMut
      = (.ok bytes, dec', rc') := hgz
  constructor
  · intro hTnil
    subst hTnil
    have hbytes : bytes = [] := by
      rcases List.append_eq_nil.mp hT.symm with ⟨h1, _⟩
      exact h1
    subst hbytes
    rcases hempty rfl with ⟨_, hst⟩
    have hT'nil : T' = [] := by simpa using hT
    subst hT'nil
    rcases hgood' with ⟨hrc', hinv'⟩
    rcases dec' with ⟨st', out'⟩
    simp only at hst
    subst hst
    rcases hinv' with ⟨hflat', hout'⟩
    rcases read1_empty rc' hrc' hflat' with ⟨rc'', hread'', _, _⟩
    refine ⟨⟨⟨none, out'⟩, rc'', Gzip.reserveIfFull g.buf⟩, ?_⟩
    simp only [Gzip.pollNext, hgzr, hread'']
  · intro hTne
    have hbytes : bytes ≠ [] := by
      intro hb
      exact hTne (hempty hb).1
    rcases bytes with _ | ⟨b, bs⟩
    · exact absurd rfl hbytes
    refine ⟨b :: bs, ⟨dec', rc',
      ⟨[], (Gzip.reserveIfFull g.buf).cap - (b :: bs).length⟩⟩, ?_, hbytes, T', hT, hgood', rfl⟩
    simp only [Gzip.pollNext, hgzr, BytesM.advanceMut, BytesM.splitTo, reserveIfFull_data,
      hbufdata, List.nil_append]
    rw [List.take_length, List.drop_length]



theorem runDecoder_step (σ : Type) (d : Dcmp σ) (fuel : Nat) (dec : Decoder σ) :
    runDecoder d (fuel + 1) dec =
      match Decoder.pollNext d dec with
      | (.item c, dec') => (runDecoder d fuel dec').map (fun r => (c :: r.1, r.2))
      | (.done, _) => some ([], true)
      | (.errItem _, _) => some ([], false)
      | (.pending, _) => none := rfl

theorem runDecoder_gzip_good (σ : Type) (d : Dcmp σ) :
    ∀ (n : Nat) (T : List Nat) (g : GzipSt σ), T.length ≤ n →
    goodGz d g.dec g.reader T → g.buf.data = [] →
    ∃ chunks, runDecoder d (n + 1) ⟨.gzip g⟩ = some (chunks, true) ∧
      chunks.flatten = T := by
  intro n
  induction n with
  | zero =>
    intro T g hlen hgood hbuf
    have hT : T = [] := List.length_eq_zero.mp (Nat.le_zero.mp hlen)
    rcases (gzip_pollNext_good σ d g T hgood hbuf).1 hT with ⟨g', hpoll⟩
    have hpn : Decoder.pollNext d ⟨.gzip g⟩ = (.done, ⟨.gzip g'⟩) := by
      simp only [Decoder.pollNext, hpoll]
    refine ⟨[], ?_, by simp [hT]⟩
    rw [runDecoder_step, hpn]
  | succ k ih =>
    intro T g hlen hgood hbuf
    by_cases hT : T = []
    · rcases (gzip_pollNext_good σ d g T hgood hbuf).1 hT with ⟨g', hpoll⟩
      have hpn : Decoder.pollNext d ⟨.gzip g⟩ = (.done, ⟨.gzip g'⟩) := by
        simp only [Decoder.pollNext, hpoll]
      refine ⟨[], ?_, by simp [hT]⟩
      rw [runDecoder_step, hpn]
    · rcases (gzip_pollNext_good σ d g T hgood hbuf).2 hT with
        ⟨bytes, g', hpoll, hbytes, T', hT', hgood', hbuf'⟩
      have hpn : Decoder.pollNext d ⟨.gzip g⟩ = (.item bytes, ⟨.gzip g'⟩) := by
        simp only [Decoder.pollNext, hpoll]
      have hlen' : T'.length ≤ k := by
        have h1 : T.length = bytes.length + T'.length := by
          rw [hT', List.length_append]
        have h2 : 1 ≤ bytes.length := by
          rcases bytes with _ | _
          · exact absurd rfl hbytes
          · simp
        omega
      rcases ih T' g' hlen' hgood' hbuf' with ⟨chunks', hrun', hflat'⟩
      refine ⟨bytes :: chunks', ?_, by simp [hflat', hT']⟩
      rw [runDecoder_step, hpn]
      simp [hrun']

theorem runDecoder_mono (σ : Type) (d : Dcmp σ) :
    ∀ (n m : Nat) (dec : Decoder σ) (r : List (List Nat) × Bool),
    runDecoder d n dec = some r → n ≤ m → runDecoder d m dec = some r := by
  intro n
  induction n with
  | zero =>
    intro m dec r h
    exact absurd h (by simp [runDecoder])
  | succ k ih =>
    intro m dec r h hle
    rcases m with _ | m'
    · omega
    rw [runDecoder_step] at h
    rw [runDecoder_step]
    rcases hp : Decoder.pollNext d dec with ⟨p, dec'⟩
    rw [hp] at h
    cases p with
    | item c =>
      simp only at h ⊢
      rcases Option.map_eq_some'.mp h with ⟨r', hr', hrr⟩
      rw [ih m' dec' r' hr' (by omega)]
      simpa using hrr
    | done => exact h
    | errItem e => exact h
    | pending => exact absurd h (by simp)



theorem eventsBytes_map_chunk (cs : List (List Nat)) :
    eventsBytes (cs.map .chunk) = cs.flatten := by
  induction cs with
  | nil => rfl
  | cons c rest ih => simp [eventsBytes_cons_chunk, ih]

theorem pollNext_pending_gzip (σ : Type) (d : Dcmp σ) (body : RC) (g0 : GzipSt σ)
    (h : Pending.poll d body = .resolved (.gzip g0)) :
    Decoder.pollNext d ⟨.pending body⟩ = Decoder.pollNext d ⟨.gzip g0⟩ := by
  simp only [Decoder.pollNext, h, Inner.pollOnce]

theorem runDecoder_pending_gzip (σ : Type) (d : Dcmp σ) (n : Nat) (body : RC) (g0 : GzipSt σ)
    (h : Pending.poll d body = .resolved (.gzip g0)) :
    runDecoder d (n + 1) ⟨.pending body⟩ = runDecoder d (n + 1) ⟨.gzip g0⟩ := by
  rw [runDecoder_step, runDecoder_step, pollNext_pending_gzip σ d body g0 h]

/-- Claim C1, amended: for every plaintext P, every correct compression c
of P (for the modelled decompressor), and every way of splitting c into a
sequence of NON-EMPTY input chunks, the decoded chunk sequence emitted by
a Decoder that detected gzip completes cleanly and concatenates to exactly
P; in particular, 1 chunk or N arbitrary non-empty chunks give the same
concatenated output. -/
theorem c1_roundtrip (σ : Type) (d : Dcmp σ) (P c : List Nat)
    (cs : List (List Nat)) (hdr : HeaderMap) (cl : Option Nat) (probe : RC)
    (hcorrect : d.runD d.init c = some P)
    (hsplit : cs.flatten = c)
    (hne : ∀ ch ∈ cs, ch ≠ [])
    (hdet : (detect (σ := σ) hdr ⟨cs.map .chunk, cl⟩ true).1 = ⟨.pending probe⟩) :
    ∃ chunks,
      runDecoder d (P.length + 1) (detect (σ := σ) hdr ⟨cs.map .chunk, cl⟩ true).1
        = some (chunks, true) ∧ chunks.flatten = P := by
  rw [hdet]
  have hprobe : probe = ⟨.notReady, cs.map .chunk⟩ := by
    rw [detect_true_eq] at hdet
    split at hdet
    · simp only [Decoder.gzipPending] at hdet
      injection hdet with hdet
      injection hdet with hdet
      exact hdet.symm
    · simp only [Decoder.plainText] at hdet
      injection hdet with hdet
      exact nomatch hdet
  subst hprobe
  rcases cs with _ | ⟨c0, rest⟩
  · rw [← hsplit] at hcorrect
    exact absurd hcorrect (by simp [Dcmp.runD])
  have hc0 : c0 ≠ [] := hne c0 (by simp)
  have hpend : Pending.poll d ⟨.notReady, (c0 :: rest).map .chunk⟩
      = .resolved (.gzip (Gzip.new d ⟨.ready c0, rest.map .chunk⟩)) := rfl
  rw [runDecoder_pending_gzip σ d P.length _ _ hpend]
  have hgood : goodGz d (Gzip.new d ⟨.ready c0, rest.map .chunk⟩).dec
      (Gzip.new d ⟨.ready c0, rest.map .chunk⟩).reader P := by
    refine ⟨⟨fun c' h' => by injection h' with h'; exact h' ▸ hc0, ?_, fun h' => nomatch h'⟩,
      P, ?_, rfl⟩
    · intro e he
      rcases List.mem_map.mp he with ⟨ch, hch, rfl⟩
      exact ⟨ch, rfl, hne ch (by simp [hch])⟩
    · show d.runD d.init (RC.flat ⟨.ready c0, rest.map .chunk⟩) = some P
      have hflat : RC.flat ⟨.ready c0, rest.map .chunk⟩ = c := by
        simp only [RC.flat, ReadState.chunkBytes, eventsBytes_map_chunk]
        rw [← hsplit]
        simp
      rw [hflat]
      exact hcorrect
  exact runDecoder_gzip_good σ d P.length P _ le_rfl hgood rfl

/-- Witness for C1 (amended): the echo decompressor, compression [7, 255]
of plaintext [7], delivered as two chunks. -/
theorem c1_witness :
    Dcmp.runD ⟨(), fun _ b => if b = 255 then .done [] else .more () [b]⟩ () [7, 255]
      = some [7] ∧
    ([[7], [255]] : List (List Nat)).flatten = [7, 255] ∧
    ∃ chunks,
      runDecoder ⟨(), fun _ b => if b = 255 then .done [] else .more () [b]⟩ 2
        (detect ⟨["gzip"], [], [], []⟩ ⟨[[7], [255]].map .chunk, none⟩ true).1
        = some (chunks, true) ∧ chunks.flatten = [7] :=
  ⟨by decide, by decide,
    c1_roundtrip Unit ⟨(), fun _ b => if b = 255 then .done [] else .more () [b]⟩ [7] [7, 255]
      [[7], [255]] ⟨["gzip"], [], [], []⟩ none ⟨.notReady, [[7], [255]].map .chunk⟩
      (by decide) (by decide) (by decide) rfl⟩

/-- Counterexample to claim C1 as stated (arbitrary chunk splits): the
split [[7], [], [255]] of the correct compression [7, 255] of plaintext
[7] contains an empty chunk; the empty chunk makes the reader report a
zero-byte read mid-stream, which the decompressor must treat as
end-of-file, so the run ends in an error and no fuel makes the decoder
emit a cleanly-terminated sequence concatenating to [7]. -/
theorem c1_counterexample :
    Dcmp.runD ⟨(), fun _ b => if b = 255 then .done [] else .more () [b]⟩ () [7, 255]
      = some [7] ∧
    ([[7], [], [255]] : List (List Nat)).flatten = [7, 255] ∧
    ¬ ∃ fuel chunks,
        runDecoder ⟨(), fun _ b => if b = 255 then .done [] else .more () [b]⟩ fuel
          (detect ⟨["gzip"], [], [], []⟩ ⟨[[7], [], [255]].map .chunk, none⟩ true).1
        = some (chunks, true) ∧ chunks.flatten = [7] := by
  refine ⟨by decide, by decide, ?_⟩
  rintro ⟨fuel, chunks, hrun, hflat⟩
  have h2 : runDecoder (⟨(), fun _ b => if b = 255 then .done [] else .more () [b]⟩ : Dcmp Unit)
      2 (detect ⟨["gzip"], [], [], []⟩ ⟨[[7], [], [255]].map .chunk, none⟩ true).1
      = some ([[7]], false) := by decide
  rcases fuel with _ | _ | f
  · simp [runDecoder] at hrun
  · have h1 : runDecoder (⟨(), fun _ b => if b = 255 then .done [] else .more () [b]⟩ : Dcmp Unit)
        1 (detect ⟨["gzip"], [], [], []⟩ ⟨[[7], [], [255]].map .chunk, none⟩ true).1
        = none := by decide
    rw [h1] at hrun
    exact nomatch hrun
  · have hm := runDecoder_mono Unit _ 2 (f + 2) _ ([[7]], false) h2 (by omega)
    rw [hm] at hrun
    injection hrun with hrun
    exact absurd (congrArg Prod.snd hrun) (by simp)

/-- Claim C3: whenever the decompressor reports end-of-stream (a zero-byte
decompression result), the stage performs exactly one 1-byte read against
the raw underlying reader: a zero-byte probe result means clean completion,
any byte means an InvalidData error — never silent success or silent
truncation. -/
theorem c3_trailing_probe (σ : Type) (d : Dcmp σ) (g : GzipSt σ)
    (dec' : GzDec σ) (rc' : RC)
    (hdecomp : gzRead d g.dec g.reader (Gzip.reserveIfFull g.buf).remainingMut
      = (.ok [], dec', rc')) :
    (∀ rc'', RC.read rc' 1 = (.ok [], rc'') →
      Gzip.pollNext d g = (.done, ⟨dec', rc'', Gzip.reserveIfFull g.buf⟩)) ∧
    (∀ b bs rc'', RC.read rc' 1 = (.ok (b :: bs), rc'') →
      Gzip.pollNext d g = (.errItem .invalidData, ⟨dec', rc'', Gzip.reserveIfFull g.buf⟩)) := by
  constructor
  · intro rc'' hread
    simp only [Gzip.pollNext, hdecomp, hread]
  · intro b bs rc'' hread
    simp only [Gzip.pollNext, hdecomp, hread]

/-- Witness for C3: a finished decompressor over a reader holding one
trailing byte gives the InvalidData error; over a drained reader it gives
clean completion. -/
theorem c3_witness :
    gzRead (⟨(), fun s _ => .more s []⟩ : Dcmp Unit) ⟨none, []⟩ ⟨.notReady, [.chunk [9]]⟩
        (Gzip.reserveIfFull ⟨[], 8192⟩).remainingMut
      = (.ok [], ⟨none, []⟩, ⟨.notReady, [.chunk [9]]⟩) ∧
    RC.read ⟨.notReady, [.chunk [9]]⟩ 1 = (.ok [9], ⟨.notReady, []⟩) ∧
    Gzip.pollNext (⟨(), fun s _ => .more s []⟩ : Dcmp Unit)
        ⟨⟨none, []⟩, ⟨.notReady, [.chunk [9]]⟩, ⟨[], 8192⟩⟩
      = (.errItem .invalidData, ⟨⟨none, []⟩, ⟨.notReady, []⟩, Gzip.reserveIfFull ⟨[], 8192⟩⟩) ∧
    Gzip.pollNext (⟨(), fun s _ => .more s []⟩ : Dcmp Unit)
        ⟨⟨none, []⟩, ⟨.notReady, []⟩, ⟨[], 8192⟩⟩
      = (.done, ⟨⟨none, []⟩, ⟨.eof, []⟩, Gzip.reserveIfFull ⟨[], 8192⟩⟩) :=
  ⟨rfl, rfl,
    (c3_trailing_probe Unit ⟨(), fun s _ => .more s []⟩
        ⟨⟨none, []⟩, ⟨.notReady, [.chunk [9]]⟩, ⟨[], 8192⟩⟩ ⟨none, []⟩
        ⟨.notReady, [.chunk [9]]⟩ rfl).2 9 [] ⟨.notReady, []⟩ rfl,
    (c3_trailing_probe Unit ⟨(), fun s _ => .more s []⟩
        ⟨⟨none, []⟩, ⟨.notReady, []⟩, ⟨[], 8192⟩⟩ ⟨none, []⟩
        ⟨.notReady, []⟩ rfl).1 ⟨.eof, []⟩ rfl⟩

/-- Claim C9: a successful decompression step that produces n > 0 bytes
emits exactly one chunk holding exactly those n bytes, sliced from the
scratch buffer at the previous write position; `advance_mut` grows the
buffer content by n, and when the free capacity was exhausted the buffer
is grown by the fixed INIT_BUFFER_SIZE (8 KiB) increment, not by a
caller-requested amount. -/
theorem c9_emit_chunk (σ : Type) (d : Dcmp σ) (g : GzipSt σ)
    (b : Nat) (bs : List Nat) (dec' : GzDec σ) (rc' : RC)
    (hbufdata : g.buf.data = [])
    (hdecomp : gzRead d g.dec g.reader (Gzip.reserveIfFull g.buf).remainingMut
      = (.ok (b :: bs), dec', rc')) :
    Gzip.pollNext d g
      = (.item (b :: bs),
         ⟨dec', rc', ⟨[], (Gzip.reserveIfFull g.buf).cap - (b :: bs).length⟩⟩) ∧
    ((Gzip.reserveIfFull g.buf).advanceMut (b :: bs)).data.length
      = (Gzip.reserveIfFull g.buf).data.length + (b :: bs).length ∧
    ((Gzip.reserveIfFull g.buf).advanceMut (b :: bs)).splitTo (b :: bs).length
      = (b :: bs, ⟨[], (Gzip.reserveIfFull g.buf).cap - (b :: bs).length⟩) ∧
    (∀ buf : BytesM, buf.remainingMut = 0 →
      (buf.reserve INIT_BUFFER_SIZE).cap = buf.data.length + INIT_BUFFER_SIZE ∧
      (buf.reserve INIT_BUFFER_SIZE).remainingMut = INIT_BUFFER_SIZE) := by
  have hsplit : ((Gzip.reserveIfFull g.buf).advanceMut (b :: bs)).splitTo (b :: bs).length
      = (b :: bs, ⟨[], (Gzip.reserveIfFull g.buf).cap - (b :: bs).length⟩) := by
    simp only [BytesM.advanceMut, BytesM.splitTo, Gzip.reserveIfFull]
    split
    · simp only [BytesM.reserve, hbufdata, List.nil_append]
      rw [List.take_length, List.drop_length]
    · simp only [hbufdata, List.nil_append]
      rw [List.take_length, List.drop_length]
  refine ⟨?_, ?_, hsplit, ?_⟩
  · simp only [Gzip.pollNext, hdecomp, hsplit]
  · simp [BytesM.advanceMut]
  · intro buf hb
    simp only [BytesM.remainingMut] at hb
    simp only [BytesM.reserve, BytesM.remainingMut]
    omega

/-- Witness for C9: a step producing three bytes emits them as one chunk
and leaves the emptied buffer with correspondingly reduced capacity. -/
theorem c9_witness :
    gzRead (⟨(), fun _ b => if b = 255 then .done [] else .more () [b, b, b]⟩ : Dcmp Unit)
        ⟨some (), []⟩ ⟨.ready [7], []⟩ (Gzip.reserveIfFull ⟨[], 8192⟩).remainingMut
      = (.ok [7, 7, 7], ⟨some (), []⟩, ⟨.notReady, []⟩) ∧
    Gzip.pollNext (⟨(), fun _ b => if b = 255 then .done [] else .more () [b, b, b]⟩ : Dcmp Unit)
        ⟨⟨some (), []⟩, ⟨.ready [7], []⟩, ⟨[], 8192⟩⟩
      = (.item [7, 7, 7], ⟨⟨some (), []⟩, ⟨.notReady, []⟩, ⟨[], 8192 - 3⟩⟩) :=
  ⟨rfl,
    (c9_emit_chunk Unit ⟨(), fun _ b => if b = 255 then .done [] else .more () [b, b, b]⟩
      ⟨⟨some (), []⟩, ⟨.ready [7], []⟩, ⟨[], 8192⟩⟩ 7 [7, 7] ⟨some (), []⟩
      ⟨.notReady, []⟩ rfl rfl).1⟩

end Rq
